import Mathlib

/-!
Verification of the BLS-DKG randomness-beacon demo (crates/randcast-mock-demo).

The repository's driver (`src/crates/randcast-mock-demo/src/main.rs`) orchestrates a
Joint-Feldman DKG over a broadcast board, commits the results to a mock Controller
contract, and produces a threshold BLS signature used as a randomness output.

The shallow embedding below models curve points "in the exponent": a group element
`g^x` is represented by its scalar `x` in a field `F`, since the core never inspects
the internal structure of curve elements (spec §6).  Polynomials are coefficient
lists, low-order first, as in `threshold_bls::poly::Poly`.
-/

namespace Randcast

/-- The concrete scalar field used by the witness instances. -/
instance fact_prime_101 : Fact (Nat.Prime 101) :=
  ⟨by norm_num⟩

/-- Evaluation of a coefficient-list polynomial (low-order coefficient first) at `x`,
by Horner's rule.  Modelled from the spec: `scalar_eval(polynomial, index)` of the
curve primitive capability set (spec §6), the polynomial representation of
`threshold_bls::poly::Poly` not being under `src/`. -/
def polyEval {F : Type} [Field F] (f : List F) (x : F) : F :=
  f.foldr (fun a acc => a + x * acc) 0

/-- The constant term of a coefficient-list polynomial.  Modelled from the spec:
`Poly::public_key` returns the commitment to the shared secret polynomial's constant
term (spec §3 DKGOutput, §4.4). -/
def constTerm {F : Type} [Field F] (f : List F) : F :=
  f.headD 0

/-- Pointwise sum of two coefficient-list polynomials.  Modelled from the spec:
the shared public polynomial is "the sum of qualified senders' commitment vectors"
(spec §4.3 Output). -/
def polyAdd {F : Type} [Field F] : List F → List F → List F
  | [], g => g
  | a :: f, [] => a :: f
  | a :: f, b :: g => (a + b) :: polyAdd f g

/-- Sum of a list of coefficient-list polynomials. -/
def sumPolys {F : Type} [Field F] (fs : List (List F)) : List F :=
  fs.foldr polyAdd []

/-- Embedding of `is_all_same` from `main.rs`: takes the first element of the
iterator with `unwrap` (panicking on an empty iterator, modelled by `none`) and
checks that every remaining element equals it. -/
def is_all_same {T : Type} [DecidableEq T] (arr : List T) : Option Bool :=
  match arr with
  | [] => none
  | first :: rest => some (rest.all (fun item => decide (item = first)))

/-- The evaluation point assigned to participant index `i`.  Modelled from the spec:
"indices are later used as polynomial evaluation points" (spec §4.1). -/
def xcoord {F : Type} [Field F] (i : ℕ) : F :=
  (i : F)

/-- One participant's DKG state after Phase0.  Modelled from the spec (§4.3 Phase0):
the node holds its zero-based index and its degree-(t-1) secret polynomial whose
constant term is its private scalar. -/
structure DKGInfo (F : Type) where
  idx : ℕ
  poly : List F
deriving DecidableEq

/-- A sender's Phase1 Board entry.  Modelled from the spec (§4.3 Phase1): the Feldman
commitment vector (in exponent representation, the coefficient list itself) together
with one addressed share per recipient index. -/
structure BundledShares (F : Type) where
  sender : ℕ
  commit : List F
  shares : List (ℕ × F)
deriving DecidableEq

/-- A responder's Phase2 Board entry.  Modelled from the spec (§4.3 Phase2): for each
dealer, a response that is `valid` (`true`) or a `complaint` (`false`). -/
structure BundledResponses where
  sender : ℕ
  evals : List (ℕ × Bool)
deriving DecidableEq

/-- A node's long-term signing share: its index and the share value (a scalar). -/
structure Share (F : Type) where
  idx : ℕ
  value : F
deriving DecidableEq

/-- Embedding of `DKGOutput`: the shared public polynomial and the node's private
signing share (spec §3). -/
structure DKGOutput (F : Type) where
  public : List F
  share : Share F
deriving DecidableEq

/-- Embedding of `dkg_core::Phase2Result`: either a final output or a request to
continue to the justification round Phase3 (spec §4.3). -/
inductive Phase2Result (F : Type) where
  | Output : DKGOutput F → Phase2Result F
  | GoToPhase3 : Phase2Result F
deriving DecidableEq

/-- Phase0's `run`: the node publishes its Phase1 bundle to the Board.  Modelled from
the spec (§4.3 Phase1): it evaluates its polynomial at every participant's index and
publishes an addressed share per recipient plus its public commitment vector. -/
def phase0_run {F : Type} [Field F] (node : DKGInfo F) (participants : List ℕ) :
    BundledShares F :=
  { sender := node.idx
    commit := node.poly
    shares := participants.map (fun j => (j, polyEval node.poly (xcoord j))) }

/-- Feldman share verification.  Modelled from the spec (§4.3 Phase2): the recipient
checks the share addressed to it against the sender's published commitments; in
exponent representation this is evaluation of the commitment polynomial at the
recipient's point. -/
def verify_share {F : Type} [Field F] [DecidableEq F] (commit : List F)
    (recipient : ℕ) (value : F) : Bool :=
  decide (polyEval commit (xcoord recipient) = value)

/-- Phase1's `run`: after all Phase1 Board entries are visible, the node verifies
every share addressed to it and publishes, per dealer, a `valid`/`complaint`
response.  A dealer that addressed no share to this node draws a complaint.
Modelled from the spec (§4.3 Phase2). -/
def phase1_run {F : Type} [Field F] [DecidableEq F] (node : DKGInfo F)
    (allShares : List (BundledShares F)) : BundledResponses :=
  { sender := node.idx
    evals := allShares.map (fun b =>
      (b.sender,
        match b.shares.lookup node.idx with
        | some v => verify_share b.commit node.idx v
        | none => false)) }

/-- Whether any responder filed any complaint in the responses snapshot. -/
def anyComplaint (rs : List BundledResponses) : Bool :=
  rs.any (fun r => r.evals.any (fun e => !e.2))

/-- Whether some responder complained about `dealer`. -/
def responsesAccuse (rs : List BundledResponses) (dealer : ℕ) : Bool :=
  rs.any (fun r => r.evals.any (fun e => e.1 == dealer && !e.2))

/-- Phase2's `run`: once all responses are visible, either every response is `valid`
and the node outputs the sum of the qualified dealers' commitment vectors as the
shared public polynomial together with its own summed share, or complaints require
the justification round Phase3.  Modelled from the spec (§4.3 Output and the
Phase3 branch). -/
def phase2_run {F : Type} [Field F] [DecidableEq F] (node : DKGInfo F)
    (allShares : List (BundledShares F)) (responses : List BundledResponses) :
    Phase2Result F :=
  if anyComplaint responses then Phase2Result.GoToPhase3
  else
    let qual := allShares.filter (fun b => !responsesAccuse responses b.sender)
    Phase2Result.Output
      { public := sumPolys (qual.map (fun b => b.commit))
        share := { idx := node.idx
                   value := (qual.map (fun b => (b.shares.lookup node.idx).getD 0)).sum } }

/-- Collecting the per-node `Phase2Result`s: any `GoToPhase3` hits the `unreachable!`
branch of `run_dkg` in `main.rs`, modelled by `none`. -/
def collectOutputs {F : Type} : List (Phase2Result F) → Option (List (DKGOutput F))
  | [] => some []
  | Phase2Result.Output o :: rest => (collectOutputs rest).map (fun l => o :: l)
  | Phase2Result.GoToPhase3 :: _ => none

/-- The complete Phase1 (shares) Board snapshot taken by `run_dkg` after every
`phase0.run` has completed: one bundle per participant, in participant order. -/
def dkg_shares_snapshot {F : Type} [Field F] (phase0s : List (DKGInfo F)) :
    List (BundledShares F) :=
  phase0s.map (fun p => phase0_run p (List.range phase0s.length))

/-- The complete Phase2 (responses) Board snapshot taken by `run_dkg` after every
`phase1.run` has completed: one response bundle per participant. -/
def dkg_responses_snapshot {F : Type} [Field F] [DecidableEq F]
    (phase0s : List (DKGInfo F)) : List BundledResponses :=
  phase0s.map (fun p => phase1_run p (dkg_shares_snapshot phase0s))

/-- The list of per-node `Phase2Result`s computed by `run_dkg` from the two complete
snapshots. -/
def dkg_results {F : Type} [Field F] [DecidableEq F] (phase0s : List (DKGInfo F)) :
    List (Phase2Result F) :=
  phase0s.map (fun p => phase2_run p (dkg_shares_snapshot phase0s)
    (dkg_responses_snapshot phase0s))

/-- Embedding of `run_dkg` from `main.rs`: every `phase0.run` completes (publishing
to the Board) before the shares snapshot is taken and any Phase2 is constructed;
every `phase1.run` completes before the responses snapshot is taken; the
`unreachable!` on `GoToPhase3` and the `assert!(is_all_same(..))` are modelled by
`none`. -/
def run_dkg {F : Type} [Field F] [DecidableEq F] (phase0s : List (DKGInfo F)) :
    Option (List (DKGOutput F)) :=
  match collectOutputs (dkg_results phase0s) with
  | none => none
  | some outs =>
    match is_all_same (outs.map (fun o => o.public)) with
    | some true => some outs
    | _ => none

/-- Embedding of `setup` from `main.rs`, with the random polynomial drawn by each
participant made explicit as a parameter: participant `i` gets index `i` (indices
are assigned by position, as `Node::new(i as Idx, ..)` does) and its secret
polynomial. -/
def setup_phase0s {F : Type} (polys : List (List F)) : List (DKGInfo F) :=
  polys.enum.map (fun p => { idx := p.1, poly := p.2 })

/-- Group lifecycle states of the Controller (spec §4.5). -/
inductive GState where
  | Forming
  | DKGRequested
  | Committing
  | Available
deriving DecidableEq

/-- Signature-task states of the Controller (spec §4.5). -/
inductive TState where
  | Pending
  | Fulfilled
deriving DecidableEq

/-- A DKG task emitted by the Controller (spec §3). -/
structure DKGTask where
  group_index : ℕ
  epoch : ℕ
deriving DecidableEq

/-- A signature task emitted by the Controller (spec §3). -/
structure SignatureTask (F : Type) where
  index : ℕ
  message : F
deriving DecidableEq

/-- A signature task together with its lifecycle state. -/
structure TaskRec (F : Type) where
  task : SignatureTask F
  tstate : TState
deriving DecidableEq

/-- Modelled from the spec: the Controller coordination state machine (§4.5), whose
implementation (`randcast_mock_demo::contract::Controller`) is not under `src/`.
Key material (public keys, signatures, messages) is kept abstract as field scalars in
exponent representation; `nodes` is the ordered registry (a node's index is its
position, fixed by registration order); the single demo group's fields are inlined. -/
structure Controller (F : Type) where
  expected : ℕ
  threshold : ℕ
  nodes : List (String × F)
  gstate : GState
  epoch : ℕ
  committed_pk : Option F
  public_key : Option F
  part_public_keys : List (String × F)
  committers : List String
  tasks : List (TaskRec F)
  next_task_index : ℕ
  last_output : Option F
  rewards : List (ℕ × List String)
deriving DecidableEq

/-- A fresh Controller expecting `expected` registrations for a group with
reconstruction threshold `threshold`; nothing is registered, committed or
fulfilled yet. -/
def Controller.new (F : Type) (expected threshold : ℕ) : Controller F :=
  { expected := expected
    threshold := threshold
    nodes := []
    gstate := GState.Forming
    epoch := 1
    committed_pk := none
    public_key := none
    part_public_keys := []
    committers := []
    tasks := []
    next_task_index := 1
    last_output := none
    rewards := [] }

/-- Modelled from the spec: `register(node_id, dkg_public_key, ..) → bool` (§4.1,
§4.5): valid only in `Forming`, fails on duplicate `node_id`, appends the node at
the next index (registration order); reaching the expected participant count
freezes the registry and transitions to `DKGRequested`. -/
def node_register {F : Type} [DecidableEq F] (c : Controller F) (id : String)
    (pk : F) : Bool × Controller F :=
  if c.gstate ≠ GState.Forming then (false, c)
  else if c.nodes.any (fun nd => decide (nd.1 = id)) then (false, c)
  else
    let nodes := c.nodes ++ [(id, pk)]
    if nodes.length = c.expected then
      (true, { c with nodes := nodes, gstate := GState.DKGRequested })
    else
      (true, { c with nodes := nodes })

/-- Modelled from the spec: `emit_dkg_task` surfaces the outstanding DKG task
(group 1, current epoch); `Committing` is "entered immediately after task
emission" (§4.5). -/
def emit_dkg_task {F : Type} (c : Controller F) : DKGTask × Controller F :=
  ({ group_index := 1, epoch := c.epoch },
    if c.gstate = GState.DKGRequested then { c with gstate := GState.Committing } else c)

/-- Modelled from the spec: `commit_dkg` (§4.5): valid only in `Committing`;
rejected if `group_index`/`epoch` do not match the outstanding task, on a duplicate
commit from the same node (idempotent no-op, §5), or if the reported public key
conflicts with a previously committed value; once all `expected` consistent
commitments are recorded (the quorum policy exercised by the demonstrated run), the
group transitions to `Available` with its `public_key` set. -/
def commit_dkg {F : Type} [DecidableEq F] (c : Controller F) (id : String)
    (gidx ep : ℕ) (pk ppk : F) (disqualified : List String) : Bool × Controller F :=
  if c.gstate ≠ GState.Committing then (false, c)
  else if gidx ≠ 1 ∨ ep ≠ c.epoch then (false, c)
  else if id ∈ c.committers then (false, c)
  else if (match c.committed_pk with | some pk0 => decide (pk0 ≠ pk) | none => false) then
    (false, c)
  else
    let committers := c.committers ++ [id]
    let ppks := c.part_public_keys ++ [(id, ppk)]
    let _ := disqualified
    if committers.length = c.expected then
      (true, { c with
        committers := committers
        part_public_keys := ppks
        committed_pk := some pk
        public_key := some pk
        gstate := GState.Available })
    else
      (true, { c with
        committers := committers
        part_public_keys := ppks
        committed_pk := some pk })

/-- The group snapshot returned by `get_group` (spec §4.5). -/
structure GroupView (F : Type) where
  size : ℕ
  state : GState
  public_key : Option F
  part_public_keys : List (String × F)
  committers : List String
deriving DecidableEq

/-- Modelled from the spec: `get_group` returns a read-only snapshot of the group. -/
def get_group {F : Type} (c : Controller F) : GroupView F :=
  { size := c.nodes.length
    state := c.gstate
    public_key := c.public_key
    part_public_keys := c.part_public_keys
    committers := c.committers }

/-- Modelled from the spec: `request(seed)` (§4.5): valid only once the group is
`Available`; creates a pending `SignatureTask` bound to a message derived from the
seed (the derivation is abstract; it is modelled as the seed scalar itself). -/
def request {F : Type} (c : Controller F) (seed : F) : Bool × Controller F :=
  if c.gstate ≠ GState.Available then (false, c)
  else
    (true, { c with
      tasks := c.tasks ++ [{ task := { index := c.next_task_index, message := seed },
                             tstate := TState.Pending }]
      next_task_index := c.next_task_index + 1 })

/-- Modelled from the spec: `emit_signature_task` surfaces the next pending task. -/
def emit_signature_task {F : Type} (c : Controller F) : Option (SignatureTask F) :=
  (c.tasks.find? (fun tr => decide (tr.tstate = TState.Pending))).map (fun tr => tr.task)

/-- Modelled from the spec: BLS verification of an aggregated signature under the
group public key (§4.4), in exponent representation: the signature scalar must equal
the secret (the public key's discrete log) times the message hash scalar. -/
def verify {F : Type} [Field F] [DecidableEq F] (pk msg sig : F) : Bool :=
  decide (sig = pk * msg)

/-- Modelled from the spec: the `RandomnessOutput` is "derived deterministically from
the fulfilled AggregatedSignature" (§3); the derivation is abstract and modelled as
the signature scalar itself. -/
def derive_output {F : Type} (sig : F) : F :=
  sig

/-- The task record bound to `index`, if any. -/
def findTask {F : Type} (c : Controller F) (index : ℕ) : Option (TaskRec F) :=
  c.tasks.find? (fun tr => decide (tr.task.index = index))

/-- Marks the task bound to `index` as `Fulfilled`. -/
def setTaskFulfilled {F : Type} (tasks : List (TaskRec F)) (index : ℕ) :
    List (TaskRec F) :=
  tasks.map (fun tr =>
    if tr.task.index = index then { tr with tstate := TState.Fulfilled } else tr)

/-- Modelled from the spec: `fulfill` (§4.5): valid only for a task in `Pending`;
re-verifies the aggregated signature against the bound group's public key and the
task's message; rejects without side effect on an unknown or already-`Fulfilled`
task or on verification failure; on success marks the task `Fulfilled`, records the
reward committer set and exposes the derived randomness output. -/
def fulfill {F : Type} [Field F] [DecidableEq F] (c : Controller F) (id : String)
    (index : ℕ) (sig : F) (psigs : List (String × F)) : Bool × Controller F :=
  match findTask c index with
  | none => (false, c)
  | some tr =>
    if tr.tstate = TState.Fulfilled then (false, c)
    else
      match c.public_key with
      | none => (false, c)
      | some pk =>
        if verify pk tr.task.message sig then
          (true, { c with
            tasks := setTaskFulfilled c.tasks index
            last_output := some (derive_output sig)
            rewards := c.rewards ++ [(index, (psigs.map (fun p => p.1)))] })
        else (false, c)

/-- Modelled from the spec: `get_last_output` returns the output of the most
recently fulfilled task and "fails if none has ever been fulfilled" (§4.5); the
failure is modelled by `none`. -/
def get_last_output {F : Type} (c : Controller F) : Option F :=
  c.last_output

/-- A partial threshold signature: the signer's share index and the signature
scalar (exponent representation). -/
structure PartialSig (F : Type) where
  idx : ℕ
  value : F
deriving DecidableEq

/-- Modelled from the spec: `partial_sign(share, message)` (§4.4), in exponent
representation: the signer multiplies the hashed message scalar by its share. -/
def part_sign {F : Type} [Field F] (sh : Share F) (msg : F) : PartialSig F :=
  { idx := sh.idx, value := sh.value * msg }

/-- Modelled from the spec: `partial_verify(public_polynomial, message, psig)`
(§4.4): the partial signature must correspond to the claimed signer's public share,
i.e. the public polynomial evaluated at the signer's point. -/
def part_verify {F : Type} [Field F] [DecidableEq F] (publicPoly : List F) (msg : F)
    (ps : PartialSig F) : Bool :=
  decide (ps.value = polyEval publicPoly (xcoord ps.idx) * msg)

/-- The Lagrange coefficient at the zero point for node `x` among the points `pts`:
the product over the other points `y` of `y / (y - x)`. -/
def lagAt0 {F : Type} [Field F] [DecidableEq F] (pts : List F) (x : F) : F :=
  ((pts.filter (fun y => decide (y ≠ x))).map (fun y => y / (y - x))).prod

/-- Modelled from the spec: `aggregate(threshold, partial_signatures)` (§4.4):
"fails if fewer than `threshold` distinct, valid partial signatures are supplied";
otherwise the first `threshold` partial signatures are combined by Lagrange
interpolation at the zero point over the signers' indices. -/
def aggregate {F : Type} [Field F] [DecidableEq F] (t : ℕ)
    (psigs : List (PartialSig F)) : Option F :=
  if psigs.length < t then none
  else
    let used := psigs.take t
    let pts := used.map (fun p => xcoord p.idx)
    some ((used.map (fun p => lagAt0 pts (xcoord p.idx) * p.value)).sum)

/-- Folding `commit_dkg` over a list of (node id, partial public key) entries, all
reporting the same group public key `pk`: the shape of the driver's commit loop in
`main.rs` (lines 66-76). -/
def commit_all {F : Type} [DecidableEq F] (c : Controller F)
    (entries : List (String × F)) (ep : ℕ) (pk : F) : Controller F :=
  entries.foldl (fun acc e => (commit_dkg acc e.1 1 ep pk e.2 []).2) c

/-- The commit calls issued by the driver's commit loop in `main.rs` (lines 66-76):
node `i` (id `"0x" ++ i`) commits the partial public key `public_poly.eval(i)`
together with the group public key `public_poly.public_key()`. -/
def main_commit_entries {F : Type} [Field F] (public_poly : List F) (n : ℕ) :
    List (String × F) :=
  (List.range n).map (fun i => ("0x" ++ toString i, polyEval public_poly (xcoord i)))

/-- Embedding of the driver's commit loop in `main.rs` (lines 66-76). -/
def main_commit_loop {F : Type} [Field F] [DecidableEq F] (c : Controller F)
    (public_poly : List F) (n : ℕ) (ep : ℕ) : Controller F :=
  commit_all c (main_commit_entries public_poly n) ep (constTerm public_poly)

/-! Concrete demonstration data over ZMod 101 mirroring the demonstrated run
(t = 3, n = 5), used by the witness instances. -/

/-- The five participants' secret polynomials in the concrete demonstration run. -/
def demoPolys : List (List (ZMod 101)) :=
  [[1, 2, 3], [2, 0, 1], [3, 1, 4], [4, 4, 4], [5, 0, 2]]

/-- The DKG outputs of the concrete demonstration run. -/
def demoOutputs : List (DKGOutput (ZMod 101)) :=
  (run_dkg (setup_phase0s demoPolys)).getD []

/-- The shared public polynomial of the concrete demonstration run
(`outputs[0].public`). -/
def demoPublic : List (ZMod 101) :=
  (demoOutputs.headD { public := [], share := { idx := 0, value := 0 } }).public

/-- The Controller after the five registrations of the demonstration run. -/
def demoRegistered : Controller (ZMod 101) :=
  (List.range 5).foldl
    (fun acc (i : ℕ) => (node_register acc ("0x" ++ toString i) ((i : ZMod 101) + 10)).2)
    (Controller.new (ZMod 101) 5 3)

/-- The Controller of the demonstration run after the DKG task is emitted. -/
def demoCommitting : Controller (ZMod 101) :=
  (emit_dkg_task demoRegistered).2

/-- The Controller of the demonstration run after all five DKG commits. -/
def demoAvailable : Controller (ZMod 101) :=
  main_commit_loop demoCommitting demoPublic 5 demoCommitting.epoch

/-- The message scalar of the demonstration run's randomness request. -/
def demoMsg : ZMod 101 :=
  7

/-- The Controller of the demonstration run after the randomness request. -/
def demoRequested : Controller (ZMod 101) :=
  (request demoAvailable demoMsg).2

/-- The aggregated signature scalar of the demonstration run. -/
def demoSig : ZMod 101 :=
  constTerm demoPublic * demoMsg

/-- The partial-signature reward map submitted with the demonstration `fulfill`. -/
def demoPsigs : List (String × ZMod 101) :=
  (List.range 5).map (fun i => ("0x" ++ toString i, polyEval demoPublic (xcoord i) * demoMsg))

/-- The Controller of the demonstration run after the first successful `fulfill`. -/
def demoFulfilled : Controller (ZMod 101) :=
  (fulfill demoRequested "0x0" 1 demoSig demoPsigs).2

/-! Basic facts about the coefficient-list polynomials. -/

theorem polyEval_nil {F : Type} [Field F] (x : F) : polyEval ([] : List F) x = 0 :=
  rfl

theorem polyEval_cons {F : Type} [Field F] (a : F) (f : List F) (x : F) :
    polyEval (a :: f) x = a + x * polyEval f x :=
  rfl

theorem polyEval_zero {F : Type} [Field F] (f : List F) :
    polyEval f 0 = constTerm f := by
  cases f with
  | nil => rfl
  | cons a f => simp [polyEval_cons, constTerm]

theorem polyAdd_eval {F : Type} [Field F] (f g : List F) (x : F) :
    polyEval (polyAdd f g) x = polyEval f x + polyEval g x := by
  induction f generalizing g with
  | nil => simp [polyAdd, polyEval_nil]
  | cons a f ih =>
    cases g with
    | nil => simp [polyAdd, polyEval_nil]
    | cons b g => simp [polyAdd, polyEval_cons, ih]; ring

theorem sumPolys_eval {F : Type} [Field F] (fs : List (List F)) (x : F) :
    polyEval (sumPolys fs) x = (fs.map (fun f => polyEval f x)).sum := by
  induction fs with
  | nil => simp [sumPolys, polyEval_nil]
  | cons f fs ih =>
    simp only [sumPolys, List.foldr_cons, List.map_cons, List.sum_cons, polyAdd_eval]
    rw [← ih]
    rfl

theorem polyAdd_length {F : Type} [Field F] (f g : List F) :
    (polyAdd f g).length = max f.length g.length := by
  induction f generalizing g with
  | nil => simp [polyAdd]
  | cons a f ih =>
    cases g with
    | nil => simp [polyAdd]
    | cons b g => simp [polyAdd, ih]; omega

theorem sumPolys_length {F : Type} [Field F] (fs : List (List F)) (t : ℕ)
    (h : ∀ f ∈ fs, f.length ≤ t) : (sumPolys fs).length ≤ t := by
  induction fs with
  | nil => simp [sumPolys]
  | cons f fs ih =>
    have h1 := h f (by simp)
    have h2 : (sumPolys fs).length ≤ t := ih (fun g hg => h g (by simp [hg]))
    simp only [sumPolys, List.foldr_cons] at *
    rw [polyAdd_length]
    omega

/-! Helper lemmas about the honest all-participant DKG run. -/

theorem lookup_map_self {F : Type} (l : List ℕ) (f : ℕ → F) (i : ℕ) (hi : i ∈ l) :
    (l.map (fun j => (j, f j))).lookup i = some (f i) := by
  induction l with
  | nil => simp at hi
  | cons a l ih =>
    simp only [List.map_cons, List.lookup]
    by_cases h : i = a
    · subst h
      simp
    · have hba : (i == a) = false := by simp [h]
      rw [hba]
      exact ih (by
        rcases List.mem_cons.mp hi with h' | h'
        · exact absurd h' h
        · exact h')

theorem setup_length {F : Type} (polys : List (List F)) :
    (setup_phase0s polys).length = polys.length := by
  simp [setup_phase0s]

theorem setup_map_idx {F : Type} (polys : List (List F)) :
    (setup_phase0s polys).map (fun p => p.idx) = List.range polys.length := by
  unfold setup_phase0s
  rw [List.map_map]
  exact List.enum_map_fst polys

theorem setup_idx_lt {F : Type} (polys : List (List F)) (p : DKGInfo F)
    (hp : p ∈ setup_phase0s polys) : p.idx < polys.length := by
  have : p.idx ∈ (setup_phase0s polys).map (fun p => p.idx) := List.mem_map_of_mem _ hp
  rw [setup_map_idx] at this
  exact List.mem_range.mp this

theorem honest_responses {F : Type} [Field F] [DecidableEq F] (polys : List (List F)) :
    dkg_responses_snapshot (setup_phase0s polys) =
      (setup_phase0s polys).map (fun p =>
        { sender := p.idx
          evals := (dkg_shares_snapshot (setup_phase0s polys)).map
            (fun b => (b.sender, true)) }) := by
  unfold dkg_responses_snapshot
  apply List.map_congr_left
  intro p hp
  unfold phase1_run
  congr 1
  apply List.map_congr_left
  intro b hb
  unfold dkg_shares_snapshot at hb
  rcases List.mem_map.mp hb with ⟨q, _, rfl⟩
  unfold phase0_run
  have hmem : p.idx ∈ List.range (setup_phase0s polys).length := by
    rw [List.mem_range, setup_length]
    exact setup_idx_lt polys p hp
  rw [lookup_map_self _ _ _ hmem]
  simp [verify_share]

theorem honest_no_accuse {F : Type} [Field F] [DecidableEq F] (polys : List (List F))
    (d : ℕ) : responsesAccuse (dkg_responses_snapshot (setup_phase0s polys)) d = false := by
  rw [honest_responses]
  simp [responsesAccuse, List.any_map]

theorem honest_no_complaint {F : Type} [Field F] [DecidableEq F]
    (polys : List (List F)) :
    anyComplaint (dkg_responses_snapshot (setup_phase0s polys)) = false := by
  rw [honest_responses]
  simp [anyComplaint, List.any_map]

theorem honest_results {F : Type} [Field F] [DecidableEq F] (polys : List (List F)) :
    dkg_results (setup_phase0s polys) =
      (setup_phase0s polys).map (fun p => Phase2Result.Output
        { public := sumPolys ((dkg_shares_snapshot (setup_phase0s polys)).map
            (fun b => b.commit))
          share := { idx := p.idx
                     value := ((dkg_shares_snapshot (setup_phase0s polys)).map
                       (fun b => (b.shares.lookup p.idx).getD 0)).sum } }) := by
  unfold dkg_results
  apply List.map_congr_left
  intro p _
  unfold phase2_run
  rw [honest_no_complaint]
  simp only [Bool.false_eq_true, if_false]
  have hfilter : (dkg_shares_snapshot (setup_phase0s polys)).filter
      (fun b => !responsesAccuse (dkg_responses_snapshot (setup_phase0s polys)) b.sender) =
      dkg_shares_snapshot (setup_phase0s polys) := by
    have heq : (fun (b : BundledShares F) =>
        !responsesAccuse (dkg_responses_snapshot (setup_phase0s polys)) b.sender) =
        fun _ => true := by
      funext b
      rw [honest_no_accuse]
      rfl
    rw [heq]
    exact List.filter_true _
  rw [hfilter]

theorem collectOutputs_map_output {F : Type} {α : Type} (l : List α)
    (f : α → DKGOutput F) :
    collectOutputs (l.map (fun a => Phase2Result.Output (f a))) = some (l.map f) := by
  induction l with
  | nil => rfl
  | cons a l ih => simp [collectOutputs, ih]

theorem is_all_same_map_const {T : Type} [DecidableEq T] {α : Type} (l : List α)
    (hl : l ≠ []) (cst : T) : is_all_same (l.map (fun _ => cst)) = some true := by
  cases l with
  | nil => exact absurd rfl hl
  | cons a l => simp [is_all_same, List.all_map]

/-- Claim C9: for every non-empty sequence, `is_all_same` returns `true` iff all
elements are equal to each other; on an empty sequence the `unwrap` of the first
element panics (modelled by `none`), so callers must guarantee non-emptiness. -/
theorem is_all_same_iff_all_eq {T : Type} [DecidableEq T] (l : List T) (h : l ≠ []) :
    (is_all_same l = some true ↔ ∀ x ∈ l, ∀ y ∈ l, x = y) ∧
      is_all_same ([] : List T) = none := by
  refine ⟨?_, rfl⟩
  cases l with
  | nil => exact absurd rfl h
  | cons first rest =>
    simp only [is_all_same, Option.some.injEq, List.all_eq_true, decide_eq_true_eq]
    constructor
    · intro hall x hx y hy
      have hx' : x = first := by
        rcases List.mem_cons.mp hx with h' | h'
        · exact h'
        · exact hall x h'
      have hy' : y = first := by
        rcases List.mem_cons.mp hy with h' | h'
        · exact h'
        · exact hall y h'
      rw [hx', hy']
    · intro hall x hx
      exact hall x (List.mem_cons_of_mem _ hx) first (List.mem_cons_self _ _)

/-- Witness for C9 at a concrete input. -/
theorem is_all_same_iff_all_eq_witness :
    ([3, 3] : List ℕ) ≠ [] ∧
      ((is_all_same [3, 3] = some true ↔ ∀ x ∈ [3, 3], ∀ y ∈ [3, 3], x = y) ∧
        is_all_same ([] : List ℕ) = none) :=
  ⟨by decide, is_all_same_iff_all_eq [3, 3] (by decide)⟩

/-- Claim C1: for every pair (t, n) with 1 ≤ t ≤ n, a DKG run in which all n
participants are honest produces, for every participant, the identical shared
public polynomial (hence the identical public key): `run_dkg` succeeds, returns one
output per participant, and the `is_all_same` assertion on the `public` fields
holds. -/
theorem dkg_honest_identical_public {F : Type} [Field F] [DecidableEq F] (t n : ℕ)
    (polys : List (List F)) (h1 : 1 ≤ t) (h2 : t ≤ n) (hlen : polys.length = n)
    (hdeg : ∀ f ∈ polys, f.length = t) :
    ∃ outs, run_dkg (setup_phase0s polys) = some outs ∧ outs.length = n ∧
      is_all_same (outs.map (fun o => o.public)) = some true ∧
      ∀ o1 ∈ outs, ∀ o2 ∈ outs,
        o1.public = o2.public ∧ constTerm o1.public = constTerm o2.public := by
  have houts : collectOutputs (dkg_results (setup_phase0s polys)) =
      some ((setup_phase0s polys).map (fun p =>
        ({ public := sumPolys ((dkg_shares_snapshot (setup_phase0s polys)).map
              (fun b => b.commit))
           share := { idx := p.idx
                      value := ((dkg_shares_snapshot (setup_phase0s polys)).map
                        (fun b => (b.shares.lookup p.idx).getD 0)).sum } } :
          DKGOutput F))) := by
    rw [honest_results]
    exact collectOutputs_map_output _ _
  have hne : setup_phase0s polys ≠ [] := by
    have hpos : 0 < (setup_phase0s polys).length := by
      rw [setup_length, hlen]
      omega
    exact List.ne_nil_of_length_pos hpos
  have hsame : is_all_same ((((setup_phase0s polys).map (fun p =>
      ({ public := sumPolys ((dkg_shares_snapshot (setup_phase0s polys)).map
            (fun b => b.commit))
         share := { idx := p.idx
                    value := ((dkg_shares_snapshot (setup_phase0s polys)).map
                      (fun b => (b.shares.lookup p.idx).getD 0)).sum } } :
        DKGOutput F)))).map (fun o => o.public)) = some true := by
    rw [List.map_map]
    exact is_all_same_map_const _ hne _
  refine ⟨_, ?_, ?_, hsame, ?_⟩
  · unfold run_dkg
    rw [houts]
    simp only []
    rw [hsame]
  · rw [List.length_map, setup_length, hlen]
  · intro o1 ho1 o2 ho2
    rcases List.mem_map.mp ho1 with ⟨p1, _, rfl⟩
    rcases List.mem_map.mp ho2 with ⟨p2, _, rfl⟩
    exact ⟨rfl, rfl⟩

/-- Witness for C1 at t = 2, n = 3 over the concrete field ZMod 101. -/
theorem dkg_honest_identical_public_witness :
    (1 ≤ 2 ∧ 2 ≤ 3 ∧ ([[1, 2], [4, 5], [7, 8]] : List (List (ZMod 101))).length = 3 ∧
      (∀ f ∈ ([[1, 2], [4, 5], [7, 8]] : List (List (ZMod 101))), f.length = 2)) ∧
    (∃ outs, run_dkg (setup_phase0s ([[1, 2], [4, 5], [7, 8]] : List (List (ZMod 101)))) =
        some outs ∧ outs.length = 3 ∧
      is_all_same (outs.map (fun o => o.public)) = some true ∧
      ∀ o1 ∈ outs, ∀ o2 ∈ outs,
        o1.public = o2.public ∧ constTerm o1.public = constTerm o2.public) :=
  ⟨⟨by decide, by decide, by decide, by decide⟩,
    dkg_honest_identical_public 2 3 [[1, 2], [4, 5], [7, 8]]
      (by decide) (by decide) (by decide) (by decide)⟩

/-- If no result in the list is `GoToPhase3`, collecting the outputs succeeds. -/
theorem collectOutputs_isSome_of_no_phase3 {F : Type} (l : List (Phase2Result F))
    (h : ∀ r ∈ l, r ≠ Phase2Result.GoToPhase3) :
    (collectOutputs l).isSome = true := by
  induction l with
  | nil => rfl
  | cons r l ih =>
    cases r with
    | Output o =>
      have hrest := ih (fun r hr => h r (List.mem_cons_of_mem _ hr))
      simp only [collectOutputs]
      cases hcl : collectOutputs l with
      | none => rw [hcl] at hrest; simp at hrest
      | some outs => simp
    | GoToPhase3 => exact absurd rfl (h _ (List.mem_cons_self _ _))

/-- Claim C8: in the all-honest run every Phase2 execution yields an `Output`
result and never the `GoToPhase3` (justification round) branch; the `unreachable!`
branch in `run_dkg`'s match on `Phase2Result` is never taken. -/
theorem dkg_honest_never_phase3 {F : Type} [Field F] [DecidableEq F]
    (polys : List (List F)) :
    (∀ r ∈ dkg_results (setup_phase0s polys), r ≠ Phase2Result.GoToPhase3) ∧
      (collectOutputs (dkg_results (setup_phase0s polys))).isSome = true := by
  have hout : ∀ r ∈ dkg_results (setup_phase0s polys), r ≠ Phase2Result.GoToPhase3 := by
    intro r hr
    rw [honest_results] at hr
    rcases List.mem_map.mp hr with ⟨p, _, rfl⟩
    intro hcontra
    exact Phase2Result.noConfusion hcontra
  exact ⟨hout, collectOutputs_isSome_of_no_phase3 _ hout⟩

/-- Witness for C8 at a concrete all-honest run over ZMod 101. -/
theorem dkg_honest_never_phase3_witness :
    ((dkg_results (setup_phase0s ([[5], [7]] : List (List (ZMod 101))))).headD
        Phase2Result.GoToPhase3 ∈
      dkg_results (setup_phase0s ([[5], [7]] : List (List (ZMod 101))))) ∧
    ((dkg_results (setup_phase0s ([[5], [7]] : List (List (ZMod 101))))).headD
        Phase2Result.GoToPhase3 ≠ Phase2Result.GoToPhase3) ∧
    (collectOutputs (dkg_results (setup_phase0s
      ([[5], [7]] : List (List (ZMod 101)))))).isSome = true := by
  refine ⟨?_, ?_, ?_⟩
  · decide
  · exact (dkg_honest_never_phase3 [[5], [7]]).1 _ (by decide)
  · exact (dkg_honest_never_phase3 [[5], [7]]).2

/-- Claim C5: in every DKG execution the shares snapshot passed to the Phase2
constructions contains all n senders' entries addressed to every recipient index, the
responses snapshot passed to the output computations contains all n responders'
entries, and every per-node result is computed from those complete snapshots:
`phase1.run` all complete before any Phase2 is constructed, and `phase2.run` all
complete before any output is computed. -/
theorem dkg_phase_barrier_snapshots {F : Type} [Field F] [DecidableEq F] (n : ℕ)
    (polys : List (List F)) (hlen : polys.length = n) :
    ((dkg_shares_snapshot (setup_phase0s polys)).map (fun b => b.sender) =
      List.range n) ∧
    ((dkg_responses_snapshot (setup_phase0s polys)).map (fun r => r.sender) =
      List.range n) ∧
    (∀ b ∈ dkg_shares_snapshot (setup_phase0s polys), ∀ i < n,
      (b.shares.lookup i).isSome = true) ∧
    (dkg_results (setup_phase0s polys) = (setup_phase0s polys).map
      (fun p => phase2_run p (dkg_shares_snapshot (setup_phase0s polys))
        (dkg_responses_snapshot (setup_phase0s polys)))) := by
  refine ⟨?_, ?_, ?_, rfl⟩
  · unfold dkg_shares_snapshot phase0_run
    rw [List.map_map]
    rw [show ((fun b : BundledShares F => b.sender) ∘ (fun p : DKGInfo F =>
      ({ sender := p.idx, commit := p.poly,
         shares := (List.range (setup_phase0s polys).length).map
           (fun j => (j, polyEval p.poly (xcoord j))) } : BundledShares F))) =
      fun p : DKGInfo F => p.idx from rfl]
    rw [setup_map_idx, hlen]
  · unfold dkg_responses_snapshot phase1_run
    rw [List.map_map]
    rw [show ((fun r : BundledResponses => r.sender) ∘ (fun p : DKGInfo F =>
      ({ sender := p.idx,
         evals := (dkg_shares_snapshot (setup_phase0s polys)).map (fun b =>
           (b.sender,
             match b.shares.lookup p.idx with
             | some v => verify_share b.commit p.idx v
             | none => false)) } : BundledResponses))) =
      fun p : DKGInfo F => p.idx from rfl]
    rw [setup_map_idx, hlen]
  · intro b hb i hi
    unfold dkg_shares_snapshot at hb
    rcases List.mem_map.mp hb with ⟨q, _, rfl⟩
    unfold phase0_run
    have hmem : i ∈ List.range (setup_phase0s polys).length := by
      rw [List.mem_range, setup_length, hlen]
      exact hi
    rw [lookup_map_self _ _ _ hmem]
    rfl

/-- Witness for C5 at a concrete honest run over ZMod 101. -/
theorem dkg_phase_barrier_snapshots_witness :
    ([[3], [4]] : List (List (ZMod 101))).length = 2 ∧
    (((dkg_shares_snapshot (setup_phase0s ([[3], [4]] : List (List (ZMod 101))))).map
        (fun b => b.sender) = List.range 2) ∧
      ((dkg_responses_snapshot (setup_phase0s ([[3], [4]] : List (List (ZMod 101))))).map
        (fun r => r.sender) = List.range 2) ∧
      (∀ b ∈ dkg_shares_snapshot (setup_phase0s ([[3], [4]] : List (List (ZMod 101)))),
        ∀ i < 2, (b.shares.lookup i).isSome = true) ∧
      (dkg_results (setup_phase0s ([[3], [4]] : List (List (ZMod 101)))) =
        (setup_phase0s ([[3], [4]] : List (List (ZMod 101)))).map
          (fun p => phase2_run p
            (dkg_shares_snapshot (setup_phase0s ([[3], [4]] : List (List (ZMod 101)))))
            (dkg_responses_snapshot (setup_phase0s ([[3], [4]] : List (List (ZMod 101)))))))) :=
  ⟨by decide, dkg_phase_barrier_snapshots 2 [[3], [4]] (by decide)⟩

theorem commit_all_spec {F : Type} [DecidableEq F] :
    ∀ (entries : List (String × F)) (c : Controller F) (ep : ℕ) (pk : F),
      c.gstate = GState.Committing → c.epoch = ep →
      (c.committed_pk = none ∨ c.committed_pk = some pk) →
      (∀ e ∈ entries, e.1 ∉ c.committers) →
      (entries.map Prod.fst).Nodup →
      c.committers.length + entries.length = c.expected →
      entries ≠ [] →
      (commit_all c entries ep pk).gstate = GState.Available ∧
      (commit_all c entries ep pk).committers = c.committers ++ entries.map Prod.fst ∧
      (commit_all c entries ep pk).public_key = some pk ∧
      (commit_all c entries ep pk).part_public_keys =
        c.part_public_keys ++ entries ∧
      (commit_all c entries ep pk).nodes = c.nodes ∧
      (commit_all c entries ep pk).expected = c.expected := by
  intro entries
  induction entries with
  | nil => intro c ep pk _ _ _ _ _ _ hne; exact absurd rfl hne
  | cons e rest ih =>
    intro c ep pk hst hep hpk hfresh hnd hlen _
    have hstep : (commit_dkg c e.1 1 ep pk e.2 []).2 =
        (if c.committers.length + 1 = c.expected then
          { c with
            committers := c.committers ++ [e.1]
            part_public_keys := c.part_public_keys ++ [e]
            committed_pk := some pk
            public_key := some pk
            gstate := GState.Available }
        else
          { c with
            committers := c.committers ++ [e.1]
            part_public_keys := c.part_public_keys ++ [e]
            committed_pk := some pk }) := by
      unfold commit_dkg
      rw [if_neg (by simp [hst])]
      rw [if_neg (by simp [hep])]
      rw [if_neg (hfresh e (List.mem_cons_self _ _))]
      have hnoconf : (match c.committed_pk with
          | some pk0 => decide (pk0 ≠ pk)
          | none => false) = false := by
        rcases hpk with h | h
        · rw [h]
        · rw [h]
          simp
      rw [hnoconf]
      simp only [Bool.false_eq_true, if_false, List.length_append, List.length_cons,
        List.length_nil, Nat.zero_add]
      split <;> rfl
    have hcomm : commit_all c (e :: rest) ep pk =
        commit_all ((commit_dkg c e.1 1 ep pk e.2 []).2) rest ep pk := rfl
    have hnd' : e.1 ∉ rest.map Prod.fst ∧ (rest.map Prod.fst).Nodup := by
      rw [List.map_cons] at hnd
      exact List.nodup_cons.mp hnd
    cases rest with
    | nil =>
      have hfull : c.committers.length + 1 = c.expected := by
        simpa using hlen
      rw [hcomm, hstep, if_pos hfull]
      exact ⟨rfl, rfl, rfl, rfl, rfl, rfl⟩
    | cons e2 rest2 =>
      have hnotfull : ¬(c.committers.length + 1 = c.expected) := by
        simp only [List.length_cons] at hlen
        omega
      rw [hcomm, hstep, if_neg hnotfull]
      have ihres := ih
        { c with
          committers := c.committers ++ [e.1]
          part_public_keys := c.part_public_keys ++ [e]
          committed_pk := some pk }
        ep pk hst hep (Or.inr rfl)
        (by
          intro e' he'
          simp only [List.mem_append, List.mem_singleton]
          rintro (h | h)
          · exact hfresh e' (List.mem_cons_of_mem _ he') h
          · have hmem : e'.1 ∈ (e2 :: rest2).map Prod.fst := List.mem_map_of_mem _ he'
            exact hnd'.1 (h ▸ hmem))
        hnd'.2
        (by
          simp only [List.length_append, List.length_cons, List.length_nil] at *
          omega)
        (by simp)
      refine ⟨ihres.1, ?_, ihres.2.2.1, ?_, ihres.2.2.2.2.1, ihres.2.2.2.2.2⟩
      · rw [ihres.2.1]
        simp
      · rw [ihres.2.2.2.1]
        simp

/-- Claim C3: once a quorum (all n, the policy the demonstrated run exercises) of
consistent `commit_dkg` calls for the outstanding (group_index, epoch) is recorded,
the group's state becomes `Available`, its committers set is exactly the committing
nodes and is fixed (any further commit is rejected without effect), and its
`public_key` is set to the committed value. -/
theorem commit_dkg_quorum_available {F : Type} [DecidableEq F] (c : Controller F)
    (entries : List (String × F)) (pk : F)
    (h1 : c.gstate = GState.Committing) (h2 : c.committed_pk = none)
    (h3 : c.committers = []) (h4 : (entries.map Prod.fst).Nodup)
    (h5 : entries.length = c.expected) (h6 : entries ≠ []) :
    (get_group (commit_all c entries c.epoch pk)).state = GState.Available ∧
    (get_group (commit_all c entries c.epoch pk)).committers = entries.map Prod.fst ∧
    (get_group (commit_all c entries c.epoch pk)).public_key = some pk ∧
    (∀ nid gidx ep pk2 ppk dq,
      commit_dkg (commit_all c entries c.epoch pk) nid gidx ep pk2 ppk dq =
        (false, commit_all c entries c.epoch pk)) := by
  have hs := commit_all_spec entries c c.epoch pk h1 rfl (Or.inl h2)
    (fun e _ => by rw [h3]; exact List.not_mem_nil _)
    h4 (by rw [h3]; simpa using h5) h6
  refine ⟨hs.1, ?_, hs.2.2.1, ?_⟩
  · show (commit_all c entries c.epoch pk).committers = _
    rw [hs.2.1, h3, List.nil_append]
  · intro nid gidx ep pk2 ppk dq
    unfold commit_dkg
    rw [if_pos]
    rw [hs.1]
    intro hcon
    exact GState.noConfusion hcon

/-- Witness for C3: the demonstrated run's five commits take the group from
`Committing` to `Available` with the five committers recorded. -/
theorem commit_dkg_quorum_available_witness :
    (demoCommitting.gstate = GState.Committing ∧ demoCommitting.committed_pk = none ∧
      demoCommitting.committers = [] ∧
      ((main_commit_entries demoPublic 5).map Prod.fst).Nodup ∧
      (main_commit_entries demoPublic 5).length = demoCommitting.expected ∧
      main_commit_entries demoPublic 5 ≠ []) ∧
    ((get_group (commit_all demoCommitting (main_commit_entries demoPublic 5)
        demoCommitting.epoch (constTerm demoPublic))).state = GState.Available ∧
      (get_group (commit_all demoCommitting (main_commit_entries demoPublic 5)
        demoCommitting.epoch (constTerm demoPublic))).committers =
          (main_commit_entries demoPublic 5).map Prod.fst ∧
      (get_group (commit_all demoCommitting (main_commit_entries demoPublic 5)
        demoCommitting.epoch (constTerm demoPublic))).public_key =
          some (constTerm demoPublic) ∧
      (∀ nid gidx ep pk2 ppk dq,
        commit_dkg (commit_all demoCommitting (main_commit_entries demoPublic 5)
          demoCommitting.epoch (constTerm demoPublic)) nid gidx ep pk2 ppk dq =
          (false, commit_all demoCommitting (main_commit_entries demoPublic 5)
            demoCommitting.epoch (constTerm demoPublic)))) :=
  ⟨⟨by decide, by decide, by decide, by decide, by decide, by decide⟩,
    commit_dkg_quorum_available demoCommitting (main_commit_entries demoPublic 5)
      (constTerm demoPublic) (by decide) (by decide) (by decide) (by decide)
      (by decide) (by decide)⟩

/-- Association-list lookup over a keyed map built from a list with pairwise
distinct keys finds exactly the stored value. -/
theorem lookup_map_key {κ β : Type} [BEq κ] [LawfulBEq κ] (l : List ℕ) (g : ℕ → κ)
    (f : ℕ → β) (i : ℕ) (hi : i ∈ l) (hnd : (l.map g).Nodup) :
    (l.map (fun j => (g j, f j))).lookup (g i) = some (f i) := by
  induction l with
  | nil => simp at hi
  | cons a l ih =>
    rw [List.map_cons] at hnd
    have hnd' := List.nodup_cons.mp hnd
    simp only [List.map_cons, List.lookup]
    by_cases h : g i = g a
    · have hba : (g i == g a) = true := by simp [h]
      rw [hba]
      rcases List.mem_cons.mp hi with rfl | hmem
      · rfl
      · exact absurd (h ▸ List.mem_map_of_mem g hmem) hnd'.1
    · have hba : (g i == g a) = false := by simp [h]
      rw [hba]
      rcases List.mem_cons.mp hi with rfl | hmem
      · exact absurd rfl h
      · exact ih hmem hnd'.2

/-- Claim C10: the driver's commit loop records, for every node index i < n, the
partial public key `public_poly.eval(i)` under node i's id, and sets the group
public key to the shared polynomial's constant-term public key (identical across
all n commits). -/
theorem main_commit_loop_records {F : Type} [Field F] [DecidableEq F]
    (c : Controller F) (public_poly : List F) (n : ℕ)
    (h1 : c.gstate = GState.Committing) (h2 : c.committed_pk = none)
    (h3 : c.committers = []) (h4 : c.part_public_keys = [])
    (h5 : n = c.expected) (h6 : 0 < n)
    (hnd : ((List.range n).map (fun i => "0x" ++ toString i)).Nodup) :
    (∀ i, i < n →
      ((main_commit_loop c public_poly n c.epoch).part_public_keys).lookup
        ("0x" ++ toString i) = some (polyEval public_poly (xcoord i))) ∧
    (main_commit_loop c public_poly n c.epoch).public_key =
      some (constTerm public_poly) := by
  have hmapfst : (main_commit_entries public_poly n).map Prod.fst =
      (List.range n).map (fun i => "0x" ++ toString i) := by
    unfold main_commit_entries
    rw [List.map_map]
    rfl
  have hs := commit_all_spec (main_commit_entries public_poly n) c c.epoch
    (constTerm public_poly) h1 rfl (Or.inl h2)
    (fun e _ => by rw [h3]; exact List.not_mem_nil _)
    (by rw [hmapfst]; exact hnd)
    (by
      rw [h3]
      unfold main_commit_entries
      simp only [List.length_nil, List.length_map, List.length_range]
      omega)
    (by
      unfold main_commit_entries
      intro hcon
      have : (List.range n) = [] := by
        have := congrArg List.length hcon
        simp only [List.length_map, List.length_range, List.length_nil] at this
        exact List.eq_nil_of_length_eq_zero (by simp [this])
      rw [this] at hcon
      have hr : 0 < (List.range n).length := by
        rw [List.length_range]
        exact h6
      rw [this] at hr
      simp at hr)
  constructor
  · intro i hin
    show (commit_all c (main_commit_entries public_poly n) c.epoch
      (constTerm public_poly)).part_public_keys.lookup ("0x" ++ toString i) = _
    rw [hs.2.2.2.1, h4, List.nil_append]
    unfold main_commit_entries
    exact lookup_map_key (List.range n) (fun i => "0x" ++ toString i)
      (fun i => polyEval public_poly (xcoord i)) i (List.mem_range.mpr hin) hnd
  · exact hs.2.2.1

/-- Witness for C10 at the demonstrated run's commit loop over ZMod 101. -/
theorem main_commit_loop_records_witness :
    (demoCommitting.gstate = GState.Committing ∧ demoCommitting.committed_pk = none ∧
      demoCommitting.committers = [] ∧ demoCommitting.part_public_keys = [] ∧
      5 = demoCommitting.expected ∧ 0 < 5 ∧
      ((List.range 5).map (fun i => "0x" ++ toString i)).Nodup) ∧
    ((∀ i, i < 5 →
      ((main_commit_loop demoCommitting demoPublic 5
          demoCommitting.epoch).part_public_keys).lookup ("0x" ++ toString i) =
        some (polyEval demoPublic (xcoord i))) ∧
    (main_commit_loop demoCommitting demoPublic 5 demoCommitting.epoch).public_key =
      some (constTerm demoPublic)) :=
  ⟨⟨by decide, by decide, by decide, by decide, by decide, by decide, by decide⟩,
    main_commit_loop_records demoCommitting demoPublic 5 (by decide) (by decide)
      (by decide) (by decide) (by decide) (by decide) (by decide)⟩

/-- Claim C7: `node_register` rejects a node id that has already been registered,
succeeds for every fresh node id while the group is `Forming` (appending the node
at the next index, so indices follow registration order), and no other Controller
operation ever modifies the registered nodes, so indices are immutable
thereafter. -/
theorem node_register_spec {F : Type} [Field F] [DecidableEq F] (c : Controller F)
    (id : String) (pk : F) :
    (c.nodes.any (fun nd => decide (nd.1 = id)) = true →
      node_register c id pk = (false, c)) ∧
    (c.gstate = GState.Forming → c.nodes.any (fun nd => decide (nd.1 = id)) = false →
      (node_register c id pk).1 = true ∧
      (node_register c id pk).2.nodes = c.nodes ++ [(id, pk)]) ∧
    (∀ nid gidx ep pk2 ppk dq, (commit_dkg c nid gidx ep pk2 ppk dq).2.nodes = c.nodes) ∧
    ((emit_dkg_task c).2.nodes = c.nodes) ∧
    (∀ seed, (request c seed).2.nodes = c.nodes) ∧
    (∀ nid index sig psigs, (fulfill c nid index sig psigs).2.nodes = c.nodes) := by
  refine ⟨?_, ?_, ?_, ?_, ?_, ?_⟩
  · intro hdup
    unfold node_register
    by_cases hst : c.gstate ≠ GState.Forming
    · rw [if_pos hst]
    · rw [if_neg hst, if_pos hdup]
  · intro hst hfresh
    unfold node_register
    rw [if_neg (by simp [hst]), if_neg (by simp [hfresh])]
    constructor
    · dsimp only
      split <;> rfl
    · dsimp only
      split <;> rfl
  · intro nid gidx ep pk2 ppk dq
    unfold commit_dkg
    split
    · rfl
    · split
      · rfl
      · split
        · rfl
        · split
          · rfl
          · dsimp only
            split <;> rfl
  · unfold emit_dkg_task
    split <;> rfl
  · intro seed
    unfold request
    split <;> rfl
  · intro nid index sig psigs
    unfold fulfill
    cases hf : findTask c index with
    | none => rfl
    | some tr =>
      dsimp only
      by_cases hts : tr.tstate = TState.Fulfilled
      · rw [if_pos hts]
      · rw [if_neg hts]
        cases hpk : c.public_key with
        | none => rfl
        | some pk2 =>
          dsimp only
          by_cases hv : verify pk2 tr.task.message sig = true
          · rw [if_pos hv]
          · rw [if_neg hv]

/-- Witness for C7: a duplicate registration is rejected and a fresh registration
is appended, at a concrete Controller over ZMod 101. -/
theorem node_register_spec_witness :
    (((Controller.new (ZMod 101) 5 3).nodes ++
        [("0xa", (1 : ZMod 101))]).any (fun nd => decide (nd.1 = "0xa")) = true ∧
      (node_register (Controller.new (ZMod 101) 5 3) "0xa" 1).2.gstate =
        GState.Forming ∧
      (node_register (Controller.new (ZMod 101) 5 3) "0xa" 1).2.nodes.any
        (fun nd => decide (nd.1 = "0xb")) = false) ∧
    (node_register (node_register (Controller.new (ZMod 101) 5 3) "0xa" 1).2
        "0xa" 2 =
      (false, (node_register (Controller.new (ZMod 101) 5 3) "0xa" 1).2)) ∧
    ((node_register (node_register (Controller.new (ZMod 101) 5 3) "0xa" 1).2
        "0xb" 2).1 = true ∧
      (node_register (node_register (Controller.new (ZMod 101) 5 3) "0xa" 1).2
          "0xb" 2).2.nodes =
        (node_register (Controller.new (ZMod 101) 5 3) "0xa" 1).2.nodes ++
          [("0xb", (2 : ZMod 101))]) := by
  refine ⟨⟨by decide, by decide, by decide⟩, ?_, ?_⟩
  · exact (node_register_spec
      (node_register (Controller.new (ZMod 101) 5 3) "0xa" 1).2 "0xa" 2).1
      (by decide)
  · exact (node_register_spec
      (node_register (Controller.new (ZMod 101) 5 3) "0xa" 1).2 "0xb" 2).2.1
      (by decide) (by decide)

/-- After `setTaskFulfilled`, the task bound to `index` is found with its state
`Fulfilled` and its task data unchanged. -/
theorem findTask_after_fulfilled {F : Type} (tasks : List (TaskRec F)) (index : ℕ)
    (tr : TaskRec F)
    (h : tasks.find? (fun tr => decide (tr.task.index = index)) = some tr) :
    (setTaskFulfilled tasks index).find? (fun tr => decide (tr.task.index = index)) =
      some { tr with tstate := TState.Fulfilled } := by
  unfold setTaskFulfilled
  rw [List.find?_map]
  have hcomp : ((fun tr : TaskRec F => decide (tr.task.index = index)) ∘
      (fun tr : TaskRec F =>
        if tr.task.index = index then { tr with tstate := TState.Fulfilled } else tr)) =
      fun tr : TaskRec F => decide (tr.task.index = index) := by
    funext tr2
    by_cases h2 : tr2.task.index = index <;> simp [h2]
  rw [hcomp, h]
  have hidx : tr.task.index = index := by
    have hp := List.find?_some h
    simpa using hp
  simp [hidx]

/-- The exact effect of a successful `fulfill`: the bound task was `Pending`, the
aggregated signature verified under the group public key, and the new state marks
the task `Fulfilled` and exposes the derived output. -/
theorem fulfill_success_shape {F : Type} [Field F] [DecidableEq F]
    {c c' : Controller F} {nid : String} {index : ℕ} {sig : F}
    {psigs : List (String × F)}
    (h : fulfill c nid index sig psigs = (true, c')) :
    ∃ tr pk, findTask c index = some tr ∧ tr.tstate = TState.Pending ∧
      c.public_key = some pk ∧ verify pk tr.task.message sig = true ∧
      c'.tasks = setTaskFulfilled c.tasks index ∧
      c'.public_key = c.public_key ∧
      c'.last_output = some (derive_output sig) := by
  unfold fulfill at h
  cases hf : findTask c index with
  | none =>
    rw [hf] at h
    exact absurd h (by simp)
  | some tr =>
    rw [hf] at h
    dsimp only at h
    by_cases hts : tr.tstate = TState.Fulfilled
    · rw [if_pos hts] at h
      exact absurd h (by simp)
    · rw [if_neg hts] at h
      cases hpk : c.public_key with
      | none =>
        rw [hpk] at h
        exact absurd h (by simp)
      | some pk =>
        rw [hpk] at h
        dsimp only at h
        by_cases hv : verify pk tr.task.message sig = true
        · rw [if_pos hv] at h
          have hc' := ((Prod.mk.injEq _ _ _ _).mp h).2
          have hpend : tr.tstate = TState.Pending := by
            cases h2 : tr.tstate with
            | Pending => rfl
            | Fulfilled => exact absurd h2 hts
          refine ⟨tr, pk, rfl, hpend, rfl, hv, ?_, ?_, ?_⟩
          · rw [← hc']
          · rw [← hc']
          · rw [← hc']
        · rw [if_neg hv] at h
          exact absurd h (by simp)

/-- Claim C4: `fulfill` on a task that is already `Fulfilled` (or unknown), or with
an aggregated signature failing verification against the bound group's public key
and message, is rejected and leaves the Controller unchanged; and after a
successful `fulfill`, re-issuing `fulfill` for the same task is rejected without
side effect, so a task becomes `Fulfilled` exactly once. -/
theorem fulfill_reject_idempotent {F : Type} [Field F] [DecidableEq F]
    (c : Controller F) (nid nid2 : String) (index : ℕ) (sig : F)
    (psigs psigs2 : List (String × F)) :
    ((∃ tr, findTask c index = some tr ∧ tr.tstate = TState.Fulfilled) →
      fulfill c nid index sig psigs = (false, c)) ∧
    (findTask c index = none → fulfill c nid index sig psigs = (false, c)) ∧
    (∀ tr pk, findTask c index = some tr → c.public_key = some pk →
      verify pk tr.task.message sig = false →
      fulfill c nid index sig psigs = (false, c)) ∧
    (∀ c', fulfill c nid index sig psigs = (true, c') →
      fulfill c' nid2 index sig psigs2 = (false, c')) := by
  refine ⟨?_, ?_, ?_, ?_⟩
  · rintro ⟨tr, hf, hts⟩
    unfold fulfill
    rw [hf]
    dsimp only
    rw [if_pos hts]
  · intro hf
    unfold fulfill
    rw [hf]
  · intro tr pk hf hpk hv
    unfold fulfill
    rw [hf]
    dsimp only
    by_cases hts : tr.tstate = TState.Fulfilled
    · rw [if_pos hts]
    · rw [if_neg hts, hpk]
      dsimp only
      rw [if_neg (by rw [hv]; exact Bool.false_ne_true)]
  · intro c' hsucc
    rcases fulfill_success_shape hsucc with
      ⟨tr, pk, hf, _, _, _, htasks, _, _⟩
    unfold fulfill
    have hft' : findTask c' index = some { tr with tstate := TState.Fulfilled } := by
      show c'.tasks.find? _ = _
      rw [htasks]
      exact findTask_after_fulfilled c.tasks index tr hf
    rw [hft']
    dsimp only
    rw [if_pos rfl]

/-- Witness for C4: in the demonstrated run only the first of the identical
`fulfill` calls succeeds; the repeat is rejected without side effect. -/
theorem fulfill_reject_idempotent_witness :
    fulfill demoRequested "0x0" 1 demoSig demoPsigs = (true, demoFulfilled) ∧
      fulfill demoFulfilled "0x1" 1 demoSig demoPsigs = (false, demoFulfilled) :=
  ⟨by decide,
    (fulfill_reject_idempotent demoRequested "0x0" "0x1" 1 demoSig demoPsigs
      demoPsigs).2.2.2 demoFulfilled (by decide)⟩

/-- Claim C6: `get_last_output` before any task has ever been fulfilled fails (no
operation other than a successful `fulfill` ever sets the output, which starts
unset); after a successful fulfillment it returns a value that is a deterministic
function of the fulfilled aggregated signature (two runs fulfilling with the same
aggregated signature expose the same output). -/
theorem get_last_output_spec {F : Type} [Field F] [DecidableEq F] (e t : ℕ) :
    (get_last_output (Controller.new F e t) = none) ∧
    (∀ c : Controller F, ∀ nid pk,
      (node_register c nid pk).2.last_output = c.last_output) ∧
    (∀ c : Controller F, (emit_dkg_task c).2.last_output = c.last_output) ∧
    (∀ c : Controller F, ∀ nid gidx ep pk ppk dq,
      (commit_dkg c nid gidx ep pk ppk dq).2.last_output = c.last_output) ∧
    (∀ c : Controller F, ∀ seed, (request c seed).2.last_output = c.last_output) ∧
    (∀ c : Controller F, ∀ nid index sig psigs,
      (fulfill c nid index sig psigs).1 = false →
      (fulfill c nid index sig psigs).2 = c) ∧
    (∀ (c c' : Controller F), ∀ nid index sig psigs,
      fulfill c nid index sig psigs = (true, c') →
      get_last_output c' = some (derive_output sig)) ∧
    (∀ (c1 c2 c1' c2' : Controller F), ∀ nid1 nid2 i1 i2 sig ps1 ps2,
      fulfill c1 nid1 i1 sig ps1 = (true, c1') →
      fulfill c2 nid2 i2 sig ps2 = (true, c2') →
      get_last_output c1' = get_last_output c2') := by
  refine ⟨rfl, ?_, ?_, ?_, ?_, ?_, ?_, ?_⟩
  · intro c nid pk
    unfold node_register
    split
    · rfl
    · split
      · rfl
      · dsimp only
        split <;> rfl
  · intro c
    unfold emit_dkg_task
    split <;> rfl
  · intro c nid gidx ep pk ppk dq
    unfold commit_dkg
    split
    · rfl
    · split
      · rfl
      · split
        · rfl
        · split
          · rfl
          · dsimp only
            split <;> rfl
  · intro c seed
    unfold request
    split <;> rfl
  · intro c nid index sig psigs hfail
    unfold fulfill at hfail ⊢
    cases hf : findTask c index with
    | none => rfl
    | some tr =>
      rw [hf] at hfail
      dsimp only at hfail ⊢
      by_cases hts : tr.tstate = TState.Fulfilled
      · rw [if_pos hts]
      · rw [if_neg hts] at hfail ⊢
        cases hpk : c.public_key with
        | none => rfl
        | some pk =>
          rw [hpk] at hfail
          dsimp only at hfail ⊢
          by_cases hv : verify pk tr.task.message sig = true
          · rw [if_pos hv] at hfail
            simp at hfail
          · rw [if_neg hv]
  · intro c c' nid index sig psigs hsucc
    rcases fulfill_success_shape hsucc with ⟨_, _, _, _, _, _, _, _, hout⟩
    exact hout
  · intro c1 c2 c1' c2' nid1 nid2 i1 i2 sig ps1 ps2 h1 h2
    rcases fulfill_success_shape h1 with ⟨_, _, _, _, _, _, _, _, hout1⟩
    rcases fulfill_success_shape h2 with ⟨_, _, _, _, _, _, _, _, hout2⟩
    show c1'.last_output = c2'.last_output
    rw [hout1, hout2]

/-- Witness for C6: the fresh Controller has no output; the demonstrated
successful `fulfill` exposes the output derived from the aggregated signature. -/
theorem get_last_output_spec_witness :
    get_last_output (Controller.new (ZMod 101) 5 3) = none ∧
      fulfill demoRequested "0x0" 1 demoSig demoPsigs = (true, demoFulfilled) ∧
      get_last_output demoFulfilled = some (derive_output demoSig) :=
  ⟨(get_last_output_spec 5 3).1, by decide,
    (get_last_output_spec 5 3).2.2.2.2.2.2.1 demoRequested demoFulfilled "0x0" 1
      demoSig demoPsigs (by decide)⟩

/-! Bridge from coefficient-list polynomials to Mathlib's `Polynomial`, used to
prove the Lagrange-interpolation correctness of `aggregate`. -/

/-- The Mathlib polynomial with the given coefficient list (low-order first). -/
noncomputable def listToPoly {F : Type} [Field F] (f : List F) : Polynomial F :=
  f.foldr (fun a p => Polynomial.C a + Polynomial.X * p) 0

theorem listToPoly_eval {F : Type} [Field F] (f : List F) (x : F) :
    (listToPoly f).eval x = polyEval f x := by
  induction f with
  | nil => simp [listToPoly, polyEval_nil]
  | cons a f ih =>
    simp only [listToPoly, List.foldr_cons, Polynomial.eval_add, Polynomial.eval_C,
      Polynomial.eval_mul, Polynomial.eval_X, polyEval_cons]
    rw [← ih]
    rfl

theorem listToPoly_degree_lt {F : Type} [Field F] (f : List F) :
    (listToPoly f).degree < (f.length : WithBot ℕ) := by
  induction f with
  | nil =>
    simp only [listToPoly, List.foldr_nil, Polynomial.degree_zero, List.length_nil,
      Nat.cast_zero]
    exact WithBot.bot_lt_coe 0
  | cons a f ih =>
    have hstep : listToPoly (a :: f) = Polynomial.C a + Polynomial.X * listToPoly f :=
      rfl
    rw [hstep]
    refine lt_of_le_of_lt (Polynomial.degree_add_le _ _) ?_
    rw [max_lt_iff]
    constructor
    · refine lt_of_le_of_lt Polynomial.degree_C_le ?_
      rw [List.length_cons]
      exact_mod_cast Nat.succ_pos f.length
    · refine lt_of_le_of_lt (Polynomial.degree_mul_le _ _) ?_
      refine lt_of_le_of_lt (add_le_add_right Polynomial.degree_X_le _) ?_
      have hlt : (1 : WithBot ℕ) + (listToPoly f).degree <
          (1 : WithBot ℕ) + (f.length : WithBot ℕ) := by
        exact WithBot.add_lt_add_left (by simp) ih
      refine lt_of_lt_of_le hlt ?_
      rw [List.length_cons]
      rw [show ((f.length + 1 : ℕ) : WithBot ℕ) =
        ((1 : ℕ) : WithBot ℕ) + (f.length : WithBot ℕ) by
          rw [← Nat.cast_add]
          rw [Nat.add_comm]]
      simp

theorem lagAt0_eq_basis_eval {F : Type} [Field F] [DecidableEq F] (ys : List F)
    (x : F) (hnd : ys.Nodup) :
    lagAt0 ys x = Polynomial.eval 0 (Lagrange.basis ys.toFinset id x) := by
  unfold lagAt0
  rw [Lagrange.basis, Polynomial.eval_prod]
  have hfin : (ys.filter (fun y => decide (y ≠ x))).toFinset = ys.toFinset.erase x := by
    rw [List.toFinset_filter]
    ext z
    simp [Finset.mem_erase, and_comm]
  have hndf : (ys.filter (fun y => decide (y ≠ x))).Nodup := hnd.filter _
  rw [← hfin, List.prod_toFinset _ hndf]
  congr 1
  apply List.map_congr_left
  intro y _
  rw [Lagrange.basisDivisor]
  simp only [Polynomial.eval_mul, Polynomial.eval_C, Polynomial.eval_sub,
    Polynomial.eval_X, id]
  rw [div_eq_mul_inv, show y - x = -(x - y) by ring, inv_neg]
  ring

theorem sum_lagAt0_eval {F : Type} [Field F] [DecidableEq F] (f ys : List F)
    (hnd : ys.Nodup) (hlen : f.length ≤ ys.length) :
    (ys.map (fun y => lagAt0 ys y * polyEval f y)).sum = polyEval f 0 := by
  have hinj : Set.InjOn id (ys.toFinset : Set F) := Set.injOn_id _
  have hdeg : (listToPoly f).degree < ys.toFinset.card := by
    rw [List.toFinset_card_of_nodup hnd]
    exact lt_of_lt_of_le (listToPoly_degree_lt f) (by exact_mod_cast hlen)
  have hinterp := Lagrange.eq_interpolate (f := listToPoly f) hinj hdeg
  have heval := congrArg (Polynomial.eval 0) hinterp
  rw [Lagrange.interpolate_apply, Polynomial.eval_finset_sum] at heval
  rw [← List.sum_toFinset _ hnd]
  calc ys.toFinset.sum (fun y => lagAt0 ys y * polyEval f y)
      = ∑ y ∈ ys.toFinset, Polynomial.eval 0
          (Polynomial.C ((listToPoly f).eval (id y)) *
            Lagrange.basis ys.toFinset id y) := by
        refine Finset.sum_congr rfl (fun y _ => ?_)
        rw [Polynomial.eval_mul, Polynomial.eval_C, listToPoly_eval,
          lagAt0_eq_basis_eval ys y hnd, mul_comm]
        rfl
    _ = (listToPoly f).eval 0 := heval.symm
    _ = polyEval f 0 := listToPoly_eval f 0

/-- Claim C2: for any message, aggregating t or more distinct valid partial
signatures produced from shares of the public polynomial (the DKG output shares)
yields an aggregated signature that passes final verification under the derived
group public key (the polynomial's constant term), and aggregating fewer than t
partial signatures fails at the aggregation step (returns an error) rather than
producing an unverifiable signature. -/
theorem threshold_sig_spec {F : Type} [Field F] [DecidableEq F] (t : ℕ) (f : List F)
    (msg : F) (idxs : List ℕ)
    (hdeg : f.length ≤ t) (hT : t ≤ idxs.length)
    (hnd : ((idxs.take t).map (fun i => (xcoord i : F))).Nodup) :
    (∀ ps ∈ idxs.map (fun i =>
        part_sign { idx := i, value := polyEval f (xcoord i) } msg),
      part_verify f msg ps = true) ∧
    (∃ s, aggregate t (idxs.map (fun i =>
        part_sign { idx := i, value := polyEval f (xcoord i) } msg)) = some s ∧
      verify (constTerm f) msg s = true) ∧
    (∀ ps : List (PartialSig F), ps.length < t → aggregate t ps = none) := by
  refine ⟨?_, ?_, ?_⟩
  · intro ps hps
    rcases List.mem_map.mp hps with ⟨i, _, rfl⟩
    simp [part_sign, part_verify]
  · have hnotlt : ¬((idxs.map (fun i =>
        part_sign { idx := i, value := polyEval f (xcoord i) } msg)).length < t) := by
      rw [List.length_map]
      omega
    have hys : ((idxs.take t).map (fun i => (xcoord i : F))).length = t := by
      rw [List.length_map]
      exact List.length_take_of_le hT
    have hsum : (((idxs.take t).map (fun i => (xcoord i : F))).map
        (fun y => lagAt0 ((idxs.take t).map (fun i => (xcoord i : F))) y *
          polyEval f y)).sum = polyEval f 0 :=
      sum_lagAt0_eval f ((idxs.take t).map (fun i => (xcoord i : F))) hnd
        (by rw [hys]; exact hdeg)
    refine ⟨polyEval f 0 * msg, ?_, ?_⟩
    · unfold aggregate
      rw [if_neg hnotlt]
      dsimp only
      rw [← List.map_take]
      rw [List.map_map, List.map_map]
      have hcongr : (idxs.take t).map
          ((fun p : PartialSig F =>
            lagAt0 (List.map
              ((fun p : PartialSig F => xcoord p.idx) ∘ (fun i =>
                part_sign { idx := i, value := polyEval f (xcoord i) } msg))
              (idxs.take t)) (xcoord p.idx) * p.value) ∘
            (fun i => part_sign { idx := i, value := polyEval f (xcoord i) } msg)) =
          ((idxs.take t).map (fun i => (xcoord i : F))).map
            (fun y => lagAt0 ((idxs.take t).map (fun i => (xcoord i : F))) y *
              polyEval f y * msg) := by
        rw [List.map_map]
        apply List.map_congr_left
        intro i _
        show lagAt0 ((idxs.take t).map (fun i => (xcoord i : F))) (xcoord i) *
            (polyEval f (xcoord i) * msg) =
          lagAt0 ((idxs.take t).map (fun i => (xcoord i : F))) (xcoord i) *
            polyEval f (xcoord i) * msg
        rw [mul_assoc]
      rw [hcongr, List.sum_map_mul_right, hsum]
    · unfold verify
      rw [polyEval_zero]
      simp
  · intro ps hlt
    unfold aggregate
    rw [if_pos hlt]

/-- Witness for C2 at t = 2, f = 5 + X, msg = 7, signers {1, 2, 3} over ZMod 101. -/
theorem threshold_sig_spec_witness :
    (([5, 1] : List (ZMod 101)).length ≤ 2 ∧ 2 ≤ ([1, 2, 3] : List ℕ).length ∧
      ((([1, 2, 3] : List ℕ).take 2).map
        (fun i => (xcoord i : ZMod 101))).Nodup) ∧
    ((∀ ps ∈ ([1, 2, 3] : List ℕ).map (fun i =>
        part_sign { idx := i, value := polyEval ([5, 1] : List (ZMod 101)) (xcoord i) }
          (7 : ZMod 101)),
      part_verify ([5, 1] : List (ZMod 101)) 7 ps = true) ∧
    (∃ s, aggregate 2 (([1, 2, 3] : List ℕ).map (fun i =>
        part_sign { idx := i, value := polyEval ([5, 1] : List (ZMod 101)) (xcoord i) }
          (7 : ZMod 101))) = some s ∧
      verify (constTerm ([5, 1] : List (ZMod 101))) 7 s = true) ∧
    (∀ ps : List (PartialSig (ZMod 101)), ps.length < 2 → aggregate 2 ps = none)) :=
  ⟨⟨by decide, by decide, by decide⟩,
    threshold_sig_spec 2 ([5, 1] : List (ZMod 101)) 7 [1, 2, 3] (by decide) (by decide)
      (by decide)⟩

end Randcast
